import Mathlib

/-!
Verification development for the `ceph-tools` gradual OSD rebalance script
(`rebalance.py`).  The Python source is shallowly embedded: weights are
modelled as exact rationals, the mutable CRUSH nodes referenced by the
scheduler become an explicit weight map keyed by node id (object identity in
the source corresponds to node id, since `load_crush_tree` creates exactly one
node object per id), and the external cluster (topology snapshot, health
reports, issued commands, sleeps) is modelled as an explicit event trace with
the health source given as an oracle of per-query placement-group state
reports.  Unbounded `while` loops of the source are given explicit fuel;
`none` marks fuel exhaustion (or a fatal resolution error in `do_rebalance`,
which in the source raises and aborts).
-/

set_option autoImplicit false

/-- A node of the CRUSH topology tree, as built by `load_crush_tree`:
id, crush weight (absent for non-leaf entries without `crush_weight`),
name, type tag and the list of child nodes. -/
inductive CrushNode : Type where
  | mk : ℤ → Option ℚ → String → String → List CrushNode → CrushNode

def CrushNode.id : CrushNode → ℤ
  | .mk i _ _ _ _ => i

def CrushNode.weight : CrushNode → Option ℚ
  | .mk _ w _ _ _ => w

def CrushNode.name : CrushNode → String
  | .mk _ _ n _ _ => n

def CrushNode.type : CrushNode → String
  | .mk _ _ _ t _ => t

def CrushNode.childs : CrushNode → List CrushNode
  | .mk _ _ _ _ c => c

/-- The `Crush` object: map of nodes by id and the list of roots
(nodes appearing in no other node's child list). -/
structure Crush : Type where
  nodes_map : List (ℤ × CrushNode)
  roots : List CrushNode

/-- One segment test of `find_nodes`: `node.type == tp and node.name == name`. -/
def matchesSeg (seg : String × String) (n : CrushNode) : Bool :=
  n.type == seg.1 && n.name == seg.2

/-- One loop iteration of `find_nodes` over a non-final path segment:
keep candidates matching the segment and expand to all their children. -/
def descend (cur : List CrushNode) (seg : String × String) : List CrushNode :=
  (cur.filter (matchesSeg seg)).flatMap CrushNode.childs

/-- Embedded `find_nodes(crush, path)`: empty path returns the roots; otherwise descend
through every segment but the last and filter the final segment to direct
matches only. -/
def find_nodes (crush : Crush) : List (String × String) → List CrushNode
  | [] => crush.roots
  | p :: ps =>
    let path := p :: ps
    (path.dropLast.foldl descend crush.roots).filter
      (matchesSeg (path.getLast (List.cons_ne_nil p ps)))

/-- The two failure modes of `find_node` (both raised as `IndexError` in the
source, with distinct messages: "Can't found any node" and
"Found N nodes ... (should be only 1)"). -/
inductive FindErr : Type where
  | nodeNotFound : FindErr
  | ambiguousPath : FindErr
  deriving DecidableEq

/-- Embedded `find_node(crush, path)`: exactly one match is returned, zero matches is
the not-found error, more than one the ambiguous-path error. -/
def find_node (crush : Crush) (path : List (String × String)) :
    Except FindErr CrushNode :=
  match find_nodes crush path with
  | [] => .error .nodeNotFound
  | [n] => .ok n
  | _ :: _ :: _ => .error .ambiguousPath

/-- One entry of `ceph pg stat`'s `num_pg_by_state`: a state name and the
number of placement groups in that state. -/
structure PGStat : Type where
  name : String
  num : ℕ
  deriving DecidableEq

/-- Embedded `is_rebalance_complete()`: scan the reported state entries, return
`false` on the first entry whose name differs from "active+clean" with a
nonzero count, `true` if no such entry exists. -/
def is_rebalance_complete : List PGStat → Bool
  | [] => true
  | d :: rest =>
    if d.name ≠ "active+clean" ∧ d.num ≠ 0 then false
    else is_rebalance_complete rest

/-- Observable events of one run: external cluster interactions
(topology/map queries, health queries with the settled answer they returned,
issued weight-update commands), sleeps, settle-wait invocations with the
`any_updates` argument they were passed, batch servicing of a target, and
the "Nothing to change" report. -/
inductive Ev : Type where
  | topoQuery : Ev
  | mapQuery : Ev
  | healthQuery : Bool → Ev
  | graceSleep : Ev
  | pollSleep : Ev
  | waitCall : Bool → Ev
  | weightUpdate : String → ℚ → Ev
  | service : ℤ → Ev
  | printNothingToChange : Ev
  deriving DecidableEq

/-- Is this event an issued weight-update command? -/
def Ev.isWU : Ev → Bool
  | .weightUpdate _ _ => true
  | _ => false

/-- Is this event an interaction with the cluster (query or command)? -/
def Ev.isClusterInteraction : Ev → Bool
  | .topoQuery => true
  | .mapQuery => true
  | .healthQuery _ => true
  | .weightUpdate _ _ => true
  | _ => false

/-- Number of times some target was serviced (taken in a round's batch)
in a trace. -/
def countService (l : List Ev) : ℕ :=
  (l.filter fun e => match e with | .service _ => true | _ => false).length

/-- The ids of the targets serviced in a trace, in order. -/
def serviceLog (l : List Ev) : List ℤ :=
  l.filterMap fun e => match e with | .service n => some n | _ => none

/-- Number of weight-update commands issued in a trace. -/
def countWU (l : List Ev) : ℕ :=
  (l.filter Ev.isWU).length

/-- The weight carried by the last weight-update command of a trace,
if any was issued. -/
def lastIssued : List Ev → Option ℚ
  | [] => none
  | .weightUpdate _ w :: rest => some ((lastIssued rest).getD w)
  | _ :: rest => lastIssued rest

/-- The polling loop of `wait_rebalance_to_complete`:
`while not is_rebalance_complete(): sleep(5)`.  The health source is an
oracle `pg` giving the pg-state report answered by the `i`-th health query of
the run; `fuel` bounds the number of polls (`none` = fuel exhausted). -/
def pollLoop (pg : ℕ → List PGStat) : ℕ → ℕ → Option (List Ev × ℕ)
  | 0, _ => none
  | fuel + 1, i =>
    if is_rebalance_complete (pg i) then some ([Ev.healthQuery true], i + 1)
    else (pollLoop pg fuel (i + 1)).map fun p =>
      (Ev.healthQuery false :: Ev.pollSleep :: p.1, p.2)

/-- Embedded `wait_rebalance_to_complete(any_updates)`: with no recent updates, one
health query returning settled means immediate return; with recent updates,
sleep the fixed grace interval once before the first poll; then poll until
settled. -/
def waitRebalance (pg : ℕ → List PGStat) (anyUpdates : Bool) (i pf : ℕ) :
    Option (List Ev × ℕ) :=
  if anyUpdates then
    (pollLoop pg pf i).map fun p =>
      (Ev.waitCall true :: Ev.graceSleep :: p.1, p.2)
  else
    if is_rebalance_complete (pg i) then
      some ([Ev.waitCall false, Ev.healthQuery true], i + 1)
    else
      (pollLoop pg pf (i + 1)).map fun p =>
        (Ev.waitCall false :: Ev.healthQuery false :: p.1, p.2)

/-- The scheduler's working state: the queue of not-yet-converged targets
(node id, node name, required weight) and the current in-memory weight of
every node (the source mutates `node.weight` on the shared tree; node ids
identify those shared objects). -/
structure SchedState : Type where
  queue : List (ℤ × String × ℚ)
  w : ℤ → ℚ

/-- Python's `abs` on exact rationals (kept executable; equal to `|·|` by
`rabs_eq_abs`). -/
def rabs (x : ℚ) : ℚ := if x < 0 then -x else x

/-- The clamp of one round's weight change for one target:
`weight_change = required - current`, with its absolute value clamped to
`step` preserving sign (`math.copysign`). -/
def clampedChange (S w W : ℚ) : ℚ :=
  if S < rabs (W - w) then (if W - w < 0 then -(rabs S) else rabs S) else W - w

/-- The weight committed onto a target by one round:
`new_weight = current + clamped change`. -/
def stepWeight (S w W : ℚ) : ℚ :=
  w + clampedChange S w W

/-- The body of the scheduler's per-target loop: compute the clamped change
and new weight, issue a weight-update command when the change magnitude
strictly exceeds `min_weight_diff`, evict the target from the (already
rotated) queue by node identity when the new weight is within
`min_weight_diff` of the required weight, and always commit the new weight. -/
def procTarget (S E : ℚ) (st : SchedState) (t : ℤ × String × ℚ) :
    SchedState × List Ev :=
  let wc := clampedChange S (st.w t.1) t.2.2
  let nw := stepWeight S (st.w t.1) t.2.2
  let evs := if E < rabs wc then [Ev.weightUpdate t.2.1 nw] else []
  let q := if rabs (nw - t.2.2) < E then st.queue.filter (fun r => r.1 ≠ t.1)
           else st.queue
  (⟨q, Function.update st.w t.1 nw⟩, Ev.service t.1 :: evs)

/-- Folding one batch target through the round: thread the state and append
the target's events. -/
def procStep (S E : ℚ) (acc : SchedState × List Ev) (t : ℤ × String × ℚ) :
    SchedState × List Ev :=
  let r := procTarget S E acc.1 t
  (r.1, acc.2 ++ r.2)

/-- One round of the scheduler loop: take the first `max_reweight` targets
as the batch, rotate the queue (round-robin policy only), process the batch
in order, and report whether any update command was issued. -/
def doRound (algo : String) (maxR : ℕ) (S E : ℚ) (st : SchedState) :
    SchedState × List Ev × Bool :=
  let batch := st.queue.take maxR
  let q1 := if algo = "rround" then st.queue.drop maxR ++ batch else st.queue
  let res := batch.foldl (procStep S E) ((⟨q1, st.w⟩ : SchedState), ([] : List Ev))
  (res.1, res.2, res.2.any Ev.isWU)

/-- The scheduler's `while rebalance_nodes:` loop: wait on the completion
monitor with the previous round's `any_updates` flag, then run one round;
`fuel` bounds the number of rounds, `pf` the polls inside each wait. -/
def schedLoop (pg : ℕ → List PGStat) (algo : String) (maxR : ℕ) (S E : ℚ)
    (pf : ℕ) : ℕ → SchedState → Bool → ℕ → Option (List Ev × SchedState × ℕ)
  | 0, st, _, i => if st.queue = [] then some ([], st, i) else none
  | fuel + 1, st, b, i =>
    if st.queue = [] then some ([], st, i)
    else
      (waitRebalance pg b i pf).bind fun p =>
        let r := doRound algo maxR S E st
        (schedLoop pg algo maxR S E pf fuel r.1 r.2.2 p.2).map fun q =>
          (p.1 ++ r.2.1 ++ q.1, q.2)

/-- A target of the run, as built by the resolution loop of `do_rebalance`:
resolved node id and name, its starting weight from the snapshot, and the
required weight from the config. -/
structure RTarget : Type where
  nid : ℤ
  name : String
  start : ℚ
  req : ℚ

/-- The resolution loop of `do_rebalance`: each configured entry's
hierarchical path is resolved through `find_node`; a resolution failure (or
a resolved node without a weight, on which the source would fail computing
`node.weight - new_weight`) aborts the run. -/
def resolveTargets (crush : Crush) :
    List (List (String × String) × ℚ) → Option (List RTarget)
  | [] => some []
  | (path, req) :: rest =>
    match find_node crush path with
    | .error _ => none
    | .ok n =>
      match n.weight with
      | none => none
      | some w0 =>
        (resolveTargets crush rest).map fun ts => ⟨n.id, n.name, w0, req⟩ :: ts

/-- Embedded `do_rebalance`: fetch the topology snapshot, resolve every configured
target, apply the aggregate "Nothing to change" gate (only when not quiet),
optionally run the estimation step (one map query; stop after it when
estimate-only), then run the scheduler loop starting with `any_updates =
False` and perform one final wait with `any_updates = False`. -/
def do_rebalance (crush : Crush) (osds : List (List (String × String) × ℚ))
    (quiet noEstimate estimateOnly : Bool) (algo : String) (maxR : ℕ)
    (S E : ℚ) (pg : ℕ → List PGStat) (pf lf : ℕ) : Option (List Ev) :=
  match resolveTargets crush osds with
  | none => none
  | some tgts =>
    let total := (tgts.map fun t => rabs (t.start - t.req)).sum
    if quiet = false ∧ total < E then
      some [Ev.topoQuery, Ev.printNothingToChange]
    else
      let est := if noEstimate then [] else [Ev.mapQuery]
      if noEstimate = false ∧ estimateOnly = true then some (Ev.topoQuery :: est)
      else
        let st0 : SchedState :=
          ⟨tgts.map fun t => (t.nid, t.name, t.req),
           tgts.foldl (fun f t => Function.update f t.nid t.start) fun _ => 0⟩
        match schedLoop pg algo maxR S E pf lf st0 false 0 with
        | none => none
        | some (tr, _, i') =>
          match waitRebalance pg false i' pf with
          | none => none
          | some (wtr, _) => some (Ev.topoQuery :: est ++ tr ++ wtr)

/-! Sample topologies and states used as concrete inputs. -/

/-- A single OSD device node with starting weight `w0`. -/
def osdNode (w0 : ℚ) : CrushNode := .mk 0 (some w0) "osd.0" "osd" []

/-- A one-node topology rooted at that single OSD. -/
def crushOf (w0 : ℚ) : Crush := ⟨[(0, osdNode w0)], [osdNode w0]⟩

/-- Sample device node `d0` under `h1` under root `default`. -/
def devNode : CrushNode := .mk 2 (some (1/2)) "d0" "device" []

/-- Sample host node. -/
def hostNode : CrushNode := .mk 1 none "h1" "host" [devNode]

/-- Sample root node. -/
def rootNode : CrushNode := .mk 0 none "default" "root" [hostNode]

/-- Sample three-level single-root topology. -/
def sampleCrush : Crush := ⟨[(0, rootNode), (1, hostNode), (2, devNode)], [rootNode]⟩

/-- Scheduler state with three targets A, B, C at weight 0, each requiring
weight 2 (two rounds at step 1). -/
def st3 : SchedState := ⟨[(0, "A", 2), (1, "B", 2), (2, "C", 2)], fun _ => 0⟩

/-- The number of rounds the scheduler services a single target whose
remaining delta is `r`, with step `S` and tolerance `E <= r`: the least `k`
with `k * S > r - E`. -/
def roundsFor (S E r : ℚ) : ℕ := (⌊(r - E) / S⌋).toNat + 1

/-- The function `rabs` is the absolute value. -/
theorem rabs_eq_abs (x : ℚ) : rabs x = |x| := by
  unfold rabs
  split_ifs with h
  · exact (abs_of_neg h).symm
  · exact (abs_of_nonneg (not_lt.mp h)).symm

/-! Helper lemmas about trace counters. -/

theorem countService_append (a b : List Ev) :
    countService (a ++ b) = countService a + countService b := by
  simp [countService, List.filter_append]

theorem serviceLog_append (a b : List Ev) :
    serviceLog (a ++ b) = serviceLog a ++ serviceLog b := by
  simp [serviceLog, List.filterMap_append]

theorem countWU_append (a b : List Ev) :
    countWU (a ++ b) = countWU a + countWU b := by
  simp [countWU, List.filter_append]

/-! Lemmas about `find_nodes`. -/

/-- Unfolding one non-final segment of `find_nodes`. -/
theorem find_nodes_cons_cons (crush : Crush) (p q : String × String)
    (rest : List (String × String)) :
    find_nodes crush (p :: q :: rest) =
      find_nodes ⟨crush.nodes_map, descend crush.roots p⟩ (q :: rest) := by
  simp only [find_nodes, List.dropLast, List.foldl_cons]
  rw [List.getLast_cons (List.cons_ne_nil q rest)]

/-- Resolution via `find_nodes` on a path ending in `seg` descends through the prefix and
then keeps only direct matches of `seg`. -/
theorem find_nodes_concat (crush : Crush) (ps : List (String × String))
    (seg : String × String) :
    find_nodes crush (ps ++ [seg]) =
      (ps.foldl descend crush.roots).filter (matchesSeg seg) := by
  induction ps generalizing crush with
  | nil => rfl
  | cons p ps ih =>
    rcases hp : ps ++ [seg] with _ | ⟨q, rest⟩
    · exact absurd hp (by simp)
    · have h1 : find_nodes crush (p :: ps ++ [seg]) =
          find_nodes ⟨crush.nodes_map, descend crush.roots p⟩ (ps ++ [seg]) := by
        rw [List.cons_append, hp, find_nodes_cons_cons, ← hp]
      rw [h1, ih]
      rfl

/-- C5: for every topology and hierarchical path, resolution filters the
final segment to direct matches only; `find_node` returns the unique
matching node, fails with the not-found error on zero matches and with the
ambiguous-path error when more than one node remains at the final segment. -/
theorem find_node_resolution (crush : Crush) (path : List (String × String)) :
    (find_nodes crush path = [] → find_node crush path = .error .nodeNotFound)
    ∧ (∀ n, find_nodes crush path = [n] → find_node crush path = .ok n)
    ∧ (∀ n m rest, find_nodes crush path = n :: m :: rest →
        find_node crush path = .error .ambiguousPath)
    ∧ ∀ (ps : List (String × String)) (seg : String × String),
        find_nodes crush (ps ++ [seg]) =
          (ps.foldl descend crush.roots).filter (matchesSeg seg) := by
  refine ⟨?_, ?_, ?_, fun ps seg => find_nodes_concat crush ps seg⟩
  · intro h; simp only [find_node, h]
  · intro n h; simp only [find_node, h]
  · intro n m rest h; simp only [find_node, h]

/-- C5 witness: in the sample topology, the path root/host/device resolves
to the unique device node `d0`. -/
theorem find_node_resolution_witness :
    find_node sampleCrush
        [("root", "default"), ("host", "h1"), ("device", "d0")] = .ok devNode :=
  (find_node_resolution sampleCrush
    [("root", "default"), ("host", "h1"), ("device", "d0")]).2.1 devNode rfl

/-- C10: node lookup with an empty path returns exactly the roots, so
single-node resolution of an empty path returns the unique root of a
single-root topology and fails with the ambiguity error when the topology
has more than one root. -/
theorem empty_path_roots (crush : Crush) :
    find_nodes crush [] = crush.roots
    ∧ (∀ r, crush.roots = [r] → find_node crush [] = .ok r)
    ∧ (∀ n m rest, crush.roots = n :: m :: rest →
        find_node crush [] = .error .ambiguousPath) := by
  refine ⟨rfl, ?_, ?_⟩
  · intro r h
    simp only [find_node, find_nodes, h]
  · intro n m rest h
    simp only [find_node, find_nodes, h]

/-- C10 witness: the empty path on the sample single-root topology resolves
to its root node. -/
theorem empty_path_roots_witness : find_node sampleCrush [] = .ok rootNode :=
  (empty_path_roots sampleCrush).2.1 rootNode rfl

/-- C8: the completion check reports settled iff every reported pg-state
entry either is the fully-healthy state "active+clean" or has a zero count. -/
theorem settled_iff_all_healthy (l : List PGStat) :
    is_rebalance_complete l = true ↔
      ∀ d ∈ l, d.name = "active+clean" ∨ d.num = 0 := by
  induction l with
  | nil => simp [is_rebalance_complete]
  | cons d rest ih =>
    by_cases h : d.name ≠ "active+clean" ∧ d.num ≠ 0
    · simp only [is_rebalance_complete, if_pos h]
      constructor
      · intro hfalse; exact absurd hfalse (by simp)
      · intro hall
        rcases hall d (List.mem_cons_self d rest) with h1 | h2
        · exact absurd h1 h.1
        · exact absurd h2 h.2
    · simp only [is_rebalance_complete, if_neg h]
      rw [ih]
      push_neg at h
      constructor
      · intro hall e he
        rcases List.mem_cons.mp he with rfl | hmem
        · by_cases hn : e.name = "active+clean"
          · exact Or.inl hn
          · exact Or.inr (h hn)
        · exact hall e hmem
      · intro hall e he
        exact hall e (List.mem_cons_of_mem d he)

/-- C8 witness: a report with only healthy entries and zero-count unhealthy
entries is settled. -/
theorem settled_iff_all_healthy_witness :
    is_rebalance_complete [⟨"active+clean", 5⟩, ⟨"degraded", 0⟩] = true ↔
      ∀ d ∈ ([⟨"active+clean", 5⟩, ⟨"degraded", 0⟩] : List PGStat),
        d.name = "active+clean" ∨ d.num = 0 :=
  settled_iff_all_healthy [⟨"active+clean", 5⟩, ⟨"degraded", 0⟩]

/-! Arithmetic of one clamped step. -/

/-- When the remaining delta is within `step`, the round lands exactly on the
required weight. -/
theorem stepWeight_near (S w W : ℚ) (h : |W - w| ≤ S) : stepWeight S w W = W := by
  unfold stepWeight clampedChange
  simp only [rabs_eq_abs]
  rw [if_neg (not_lt.mpr h)]
  ring

/-- When the remaining delta exceeds `step`, the round moves by exactly
`step` toward the required weight. -/
theorem stepWeight_far (S w W : ℚ) (hS : 0 < S) (h : S < |W - w|) :
    |stepWeight S w W - W| = |W - w| - S := by
  unfold stepWeight clampedChange
  simp only [rabs_eq_abs]
  rw [if_pos h, abs_of_pos hS]
  rcases lt_trichotomy (W - w) 0 with hn | hz | hp
  · rw [if_pos hn]
    rw [abs_of_neg hn] at h ⊢
    rw [abs_of_pos (by linarith : (0 : ℚ) < w + -S - W)]
    ring
  · rw [hz, abs_zero] at h
    exact absurd h (by linarith)
  · rw [if_neg (not_lt.mpr hp.le)]
    rw [abs_of_pos hp] at h ⊢
    rw [abs_of_neg (by linarith : w + S - W < 0)]
    ring

/-- The magnitude of the clamped change is the smaller of the remaining
delta and `step`. -/
theorem abs_clampedChange (S w W : ℚ) (hS : 0 < S) :
    |clampedChange S w W| = min |W - w| S := by
  unfold clampedChange
  simp only [rabs_eq_abs]
  by_cases h : S < |W - w|
  · rw [if_pos h, min_eq_right h.le]
    rcases lt_trichotomy (W - w) 0 with hn | hz | hp
    · rw [if_pos hn, abs_neg, abs_abs, abs_of_pos hS]
    · rw [hz, abs_zero] at h
      exact absurd h (by linarith)
    · rw [if_neg (not_lt.mpr hp.le), abs_abs, abs_of_pos hS]
  · rw [if_neg h, min_eq_left (not_lt.mp h)]

/-- C1: one scheduler round never overshoots: given `step S > 0`, the
committed `new_weight` satisfies
`|new_weight - W| <= max (|W0 - W| - S) 0`, and whenever `|W - W0| <= S` the
target lands exactly on the desired weight `W`. -/
theorem no_overshoot (S w W : ℚ) (hS : 0 < S) :
    |stepWeight S w W - W| ≤ max (|w - W| - S) 0
    ∧ (|W - w| ≤ S → stepWeight S w W = W) := by
  constructor
  · by_cases h : S < |W - w|
    · rw [stepWeight_far S w W hS h, abs_sub_comm W w]
      exact le_max_left _ _
    · rw [stepWeight_near S w W (not_lt.mp h), sub_self, abs_zero]
      exact le_max_right _ _
  · exact fun h => stepWeight_near S w W h

/-- C1 witness: at step 1 from weight 0 toward 3, the round neither
overshoots nor terminates early. -/
theorem no_overshoot_witness :
    |stepWeight 1 0 3 - 3| ≤ max (|(0 : ℚ) - 3| - 1) 0
    ∧ (|(3 : ℚ) - 0| ≤ 1 → stepWeight 1 0 3 = 3) :=
  no_overshoot 1 0 3 (by norm_num)

/-! Per-target and per-round event structure. -/

/-- The events of one target's processing: a service marker, then a
weight-update command exactly when the clamped change exceeds the
tolerance. -/
theorem procTarget_events (S E : ℚ) (st : SchedState) (t : ℤ × String × ℚ) :
    (procTarget S E st t).2 =
      Ev.service t.1 ::
        (if E < rabs (clampedChange S (st.w t.1) t.2.2) then
          [Ev.weightUpdate t.2.1 (stepWeight S (st.w t.1) t.2.2)] else []) := rfl

/-- The service log of a processed batch is the batch's node ids, in order. -/
theorem procFold_serviceLog (S E : ℚ) (batch : List (ℤ × String × ℚ)) :
    ∀ (st : SchedState) (acc : List Ev),
      serviceLog (batch.foldl (procStep S E) (st, acc)).2 =
        serviceLog acc ++ batch.map (fun t => t.1) := by
  induction batch with
  | nil => intro st acc; simp
  | cons t ts ih =>
    intro st acc
    rw [List.foldl_cons]
    show serviceLog (ts.foldl (procStep S E)
      ((procTarget S E st t).1, acc ++ (procTarget S E st t).2)).2 = _
    rw [ih, serviceLog_append, procTarget_events]
    split_ifs <;> simp [serviceLog]

/-- A processed batch issues at most one weight-update command per target. -/
theorem procFold_countWU (S E : ℚ) (batch : List (ℤ × String × ℚ)) :
    ∀ (st : SchedState) (acc : List Ev),
      countWU (batch.foldl (procStep S E) (st, acc)).2 ≤ countWU acc + batch.length := by
  induction batch with
  | nil => intro st acc; simp
  | cons t ts ih =>
    intro st acc
    rw [List.foldl_cons]
    have h := ih (procTarget S E st t).1 (acc ++ (procTarget S E st t).2)
    have hone : countWU (acc ++ (procTarget S E st t).2) ≤ countWU acc + 1 := by
      rw [countWU_append, procTarget_events]
      split_ifs <;> simp [countWU, Ev.isWU]
    calc countWU (ts.foldl (procStep S E)
          ((procTarget S E st t).1, acc ++ (procTarget S E st t).2)).2
        ≤ countWU (acc ++ (procTarget S E st t).2) + ts.length := h
      _ ≤ countWU acc + 1 + ts.length := by omega
      _ = countWU acc + (t :: ts).length := by simp; omega

/-- C6: in every round, for every configuration, the number of weight-update
commands issued is at most `max_reweight`. -/
theorem batch_bound (algo : String) (maxR : ℕ) (S E : ℚ) (st : SchedState) :
    countWU (doRound algo maxR S E st).2.1 ≤ maxR := by
  have h := procFold_countWU S E (st.queue.take maxR)
    ⟨if algo = "rround" then st.queue.drop maxR ++ st.queue.take maxR else st.queue, st.w⟩ []
  have hlen : (st.queue.take maxR).length ≤ maxR := st.queue.length_take_le maxR
  unfold doRound
  calc countWU (((st.queue.take maxR).foldl (procStep S E)
        (⟨if algo = "rround" then st.queue.drop maxR ++ st.queue.take maxR else st.queue,
          st.w⟩, [])).2)
      ≤ countWU [] + (st.queue.take maxR).length := h
    _ ≤ maxR := by simp only [countWU, List.filter_nil, List.length_nil, Nat.zero_add]; exact hlen

/-- C3: each round services exactly the first `max_reweight` targets of the
queue, a target converging mid-round is removed from the current (already
rotated) queue by node id, and with `max_reweight = 1` and three targets
A, B, C each needing two rounds the service order is A, B, C, A, B, C. -/
theorem round_robin_order (algo : String) (maxR : ℕ) (S E : ℚ) (st : SchedState) :
    serviceLog (doRound algo maxR S E st).2.1 = (st.queue.take maxR).map (fun t => t.1)
    ∧ (∀ t : ℤ × String × ℚ, (procTarget S E st t).1.queue =
        if |stepWeight S (st.w t.1) t.2.2 - t.2.2| < E
        then st.queue.filter (fun r => r.1 ≠ t.1) else st.queue)
    ∧ (schedLoop (fun _ => []) "rround" 1 1 (1/2) 1 7 st3 false 0).map
        (fun p => serviceLog p.1) = some [0, 1, 2, 0, 1, 2] := by
  refine ⟨?_, fun t => ?_, by
    norm_num [schedLoop, doRound, procStep, procTarget, waitRebalance, pollLoop,
      is_rebalance_complete, st3, clampedChange, stepWeight, rabs, serviceLog,
      Function.update, Ev.isWU, List.filterMap_cons, List.cons_ne_nil]⟩
  case refine_2 =>
    rw [← rabs_eq_abs (stepWeight S (st.w t.1) t.2.2 - t.2.2)]
    rfl
  have h := procFold_serviceLog S E (st.queue.take maxR)
    ⟨if algo = "rround" then st.queue.drop maxR ++ st.queue.take maxR else st.queue, st.w⟩ []
  unfold doRound
  simpa [serviceLog] using h

/-- C9: in a round, a batch target's weight-update command is issued iff the
clamped change strictly exceeds `min_weight_diff`; the new weight is always
committed in memory; a target whose remaining delta is at most
`min_weight_diff` is evicted as converged without any command; and in a
concrete run the last cluster-issued weight (1) differs from the desired
weight (21/20) by a positive amount of at most `min_weight_diff`. -/
theorem command_gating_and_eviction (S E : ℚ) (st : SchedState) (nid : ℤ)
    (name : String) (W : ℚ) :
    ((procTarget S E st (nid, name, W)).2.filter Ev.isWU ≠ [] ↔
      E < |clampedChange S (st.w nid) W|)
    ∧ (procTarget S E st (nid, name, W)).1.w nid = stepWeight S (st.w nid) W
    ∧ (0 < S → 0 < E → |W - st.w nid| ≤ E →
        procTarget S E st (nid, name, W) =
          (⟨st.queue.filter (fun r => r.1 ≠ nid),
            Function.update st.w nid (stepWeight S (st.w nid) W)⟩,
           [Ev.service nid]))
    ∧ (do_rebalance (crushOf 0) [([("osd", "osd.0")], 21/20)] false true false
        "rround" 1 (1/2) (1/10) (fun _ => []) 1 3).map lastIssued = some (some 1)
    ∧ ¬((1 : ℚ) = 21/20) ∧ |(1 : ℚ) - 21/20| ≤ 1/10 := by
  refine ⟨?_, ?_, ?_, ?_, by norm_num, by rw [abs_of_neg (by norm_num)]; norm_num⟩
  · rw [procTarget_events]
    simp only [rabs_eq_abs]
    split_ifs with h <;> simp [Ev.isWU, h]
  · simp [procTarget, Function.update_same]
  · intro hS hE hc
    have hwc : ¬(E < |clampedChange S (st.w nid) W|) := by
      rw [not_lt, abs_clampedChange S (st.w nid) W hS]
      exact le_trans (min_le_left _ _) hc
    have hnw : |stepWeight S (st.w nid) W - W| < E := by
      by_cases hle : |W - st.w nid| ≤ S
      · rw [stepWeight_near S (st.w nid) W hle, sub_self, abs_zero]
        exact hE
      · rw [stepWeight_far S (st.w nid) W hS (not_le.mp hle)]
        linarith
    unfold procTarget
    simp only [rabs_eq_abs]
    rw [if_neg hwc, if_pos hnw]
  · norm_num [do_rebalance, resolveTargets, find_node, find_nodes, matchesSeg,
      descend, crushOf, osdNode, CrushNode.weight, CrushNode.id, CrushNode.name,
      CrushNode.type, schedLoop, doRound, procStep, procTarget, waitRebalance,
      pollLoop, is_rebalance_complete, clampedChange, stepWeight, rabs,
      lastIssued, Function.update, Ev.isWU, List.cons_ne_nil]

/-- C9 witness: a target already within tolerance (weight 1, desired 1,
tolerance 1/2) is evicted from the queue with no command and its new weight
committed. -/
theorem command_gating_and_eviction_witness :
    procTarget 1 (1/2) ⟨[((0 : ℤ), "x", (1 : ℚ))], fun _ => 1⟩ (0, "x", 1) =
      (⟨([((0 : ℤ), "x", (1 : ℚ))]).filter (fun r => r.1 ≠ (0 : ℤ)),
        Function.update (fun _ => (1 : ℚ)) 0 (stepWeight 1 1 1)⟩,
       [Ev.service 0]) :=
  (command_gating_and_eviction 1 (1/2) ⟨[(0, "x", 1)], fun _ => 1⟩ 0 "x" 1).2.2.1
    (by norm_num) (by norm_num) (by norm_num)

/-- C4 (amended): with the quiet flag unset, when the aggregate sum of
absolute deltas of the resolved targets is below `min_weight_diff`, the run
stops right after the initial topology snapshot with the "Nothing to change"
report: no weight-update command, no health query, no estimation map query. -/
theorem aggregate_noop_when_not_quiet (crush : Crush)
    (osds : List (List (String × String) × ℚ)) (noE eO : Bool) (algo : String)
    (maxR : ℕ) (S E : ℚ) (pg : ℕ → List PGStat) (pf lf : ℕ) (tgts : List RTarget)
    (hres : resolveTargets crush osds = some tgts)
    (htot : (tgts.map fun t => rabs (t.start - t.req)).sum < E) :
    do_rebalance crush osds false noE eO algo maxR S E pg pf lf =
      some [Ev.topoQuery, Ev.printNothingToChange] := by
  unfold do_rebalance
  rw [hres]
  simp [htot]

/-- C4 witness: one target already at its desired weight, quiet off: the run
is exactly the topology query plus the "Nothing to change" report. -/
theorem aggregate_noop_when_not_quiet_witness :
    do_rebalance (crushOf 1) [([("osd", "osd.0")], 1)] false true false "rround"
        1 1 (1/2) (fun _ => []) 1 3 =
      some [Ev.topoQuery, Ev.printNothingToChange] :=
  aggregate_noop_when_not_quiet (crushOf 1) [([("osd", "osd.0")], 1)] true false
    "rround" 1 1 (1/2) (fun _ => []) 1 3 [⟨0, "osd.0", 1, 1⟩] rfl
    (by norm_num [rabs])

/-- C4 counterexample: with the quiet flag set and a single target already at
its desired weight, the run does not report "nothing to change" and does
interact with the cluster (a topology query and two health queries), so the
claimed behaviour does not hold regardless of the quiet flag. -/
theorem aggregate_noop_quiet_counterexample :
    do_rebalance (crushOf 1) [([("osd", "osd.0")], 1)] true true false "rround"
        1 1 (1/2) (fun _ => []) 1 3 =
      some [Ev.topoQuery, Ev.waitCall false, Ev.healthQuery true, Ev.service 0,
        Ev.waitCall false, Ev.healthQuery true]
    ∧ Ev.printNothingToChange ∉
        [Ev.topoQuery, Ev.waitCall false, Ev.healthQuery true, Ev.service 0,
          Ev.waitCall false, Ev.healthQuery true]
    ∧ ([Ev.topoQuery, Ev.waitCall false, Ev.healthQuery true, Ev.service 0,
        Ev.waitCall false, Ev.healthQuery true].filter Ev.isClusterInteraction).length = 3 := by
  refine ⟨?_, by decide, by decide⟩
  norm_num [do_rebalance, resolveTargets, find_node, find_nodes, matchesSeg,
    descend, crushOf, osdNode, CrushNode.weight, CrushNode.id, CrushNode.name,
    CrushNode.type, schedLoop, doRound, procStep, procTarget, waitRebalance,
    pollLoop, is_rebalance_complete, clampedChange, stepWeight, rabs,
    Function.update, Ev.isWU, List.cons_ne_nil]

/-- C7 (amended): a settle-wait invoked with `any_updates = true` sleeps the
grace interval before its first health check; inside the loop, the wait at
the top of the next iteration is passed exactly the flag computed by the
round just executed; but the single final wait performed after the queue
empties is always passed `false`, so a last round that issued updates gets no
grace sleep there. -/
theorem wait_flag_threading (pg : ℕ → List PGStat) (algo : String) (maxR : ℕ)
    (S E : ℚ) (pf : ℕ) :
    (∀ (i : ℕ) (r : List Ev × ℕ), waitRebalance pg true i pf = some r →
      ∃ t, r.1 = Ev.waitCall true :: Ev.graceSleep :: t)
    ∧ (∀ (fuel : ℕ) (st : SchedState) (b : Bool) (i : ℕ), st.queue ≠ [] →
        schedLoop pg algo maxR S E pf (fuel + 1) st b i =
          (waitRebalance pg b i pf).bind fun p =>
            (schedLoop pg algo maxR S E pf fuel (doRound algo maxR S E st).1
                (doRound algo maxR S E st).2.2 p.2).map fun q =>
              (p.1 ++ (doRound algo maxR S E st).2.1 ++ q.1, q.2))
    ∧ (∀ (crush : Crush) (osds : List (List (String × String) × ℚ))
        (quiet noE eO : Bool) (lf : ℕ) (tr : List Ev),
        do_rebalance crush osds quiet noE eO algo maxR S E pg pf lf = some tr →
        tr = [Ev.topoQuery, Ev.printNothingToChange]
        ∨ tr = [Ev.topoQuery, Ev.mapQuery]
        ∨ ∃ pre i' w, waitRebalance pg false i' pf = some w ∧ tr = pre ++ w.1) := by
  refine ⟨?_, ?_, ?_⟩
  · intro i r h
    unfold waitRebalance at h
    rw [if_pos rfl] at h
    cases hp : pollLoop pg pf i with
    | none => rw [hp] at h; exact absurd h (by simp)
    | some p =>
      rw [hp] at h
      simp only [Option.map_some'] at h
      exact ⟨p.1, by rw [← Option.some_injective _ h]⟩
  · intro fuel st b i h
    rw [schedLoop]
    rw [if_neg h]
  · intro crush osds quiet noE eO lf tr h
    unfold do_rebalance at h
    cases hres : resolveTargets crush osds with
    | none => rw [hres] at h; exact absurd h (by simp)
    | some tgts =>
      simp only [hres] at h
      by_cases hgate : quiet = false ∧
          (List.map (fun t => rabs (t.start - t.req)) tgts).sum < E
      · rw [if_pos hgate] at h
        exact Or.inl (Option.some_injective _ h).symm
      · rw [if_neg hgate] at h
        by_cases hest : noE = false ∧ eO = true
        · rw [if_pos hest, hest.1] at h
          simp only [Bool.false_eq_true, if_false] at h
          exact Or.inr (Or.inl (Option.some_injective _ h).symm)
        · rw [if_neg hest] at h
          rcases Option.eq_none_or_eq_some (schedLoop pg algo maxR S E pf lf
              ⟨tgts.map fun t => (t.nid, t.name, t.req),
               tgts.foldl (fun f t => Function.update f t.nid t.start) fun _ => 0⟩
              false 0) with hsl | ⟨⟨q1, q2, q3⟩, hsl⟩
          · simp only [hsl] at h
            exact absurd h (by simp)
          · simp only [hsl] at h
            rcases Option.eq_none_or_eq_some (waitRebalance pg false q3 pf) with
              hw | ⟨⟨w1, w2⟩, hw⟩
            · simp only [hw] at h
              exact absurd h (by simp)
            · simp only [hw] at h
              refine Or.inr (Or.inr
                ⟨(Ev.topoQuery :: (if noE = true then [] else [Ev.mapQuery])) ++ q1,
                 q3, (w1, w2), hw, ?_⟩)
              rw [← (Option.some_injective _ h)]

/-- C7 witness: a settle-wait invoked with `any_updates = true` on a settled
cluster emits the grace sleep before its (single) health check. -/
theorem wait_flag_threading_witness :
    ∃ t, ([Ev.waitCall true, Ev.graceSleep, Ev.healthQuery true] : List Ev) =
      Ev.waitCall true :: Ev.graceSleep :: t :=
  (wait_flag_threading (fun _ => []) "rround" 1 1 1 1).1 0
    ([Ev.waitCall true, Ev.graceSleep, Ev.healthQuery true], 1) rfl

/-- C7 counterexample: a run whose (single, final) round issues a
weight-update command, yet no settle-wait of the whole run is ever passed
`true` and no grace sleep ever happens: the wait after the queue empties is
passed `false`, so the final wait does not cover the last round's movement
with the grace interval. -/
theorem final_wait_flag_counterexample :
    do_rebalance (crushOf 0) [([("osd", "osd.0")], 1)] false true false "rround"
        1 1 (1/2) (fun _ => []) 1 3 =
      some [Ev.topoQuery, Ev.waitCall false, Ev.healthQuery true, Ev.service 0,
        Ev.weightUpdate "osd.0" 1, Ev.waitCall false, Ev.healthQuery true]
    ∧ countWU [Ev.topoQuery, Ev.waitCall false, Ev.healthQuery true, Ev.service 0,
        Ev.weightUpdate "osd.0" 1, Ev.waitCall false, Ev.healthQuery true] = 1
    ∧ Ev.waitCall true ∉
        [Ev.topoQuery, Ev.waitCall false, Ev.healthQuery true, Ev.service 0,
          Ev.weightUpdate "osd.0" 1, Ev.waitCall false, Ev.healthQuery true]
    ∧ Ev.graceSleep ∉
        [Ev.topoQuery, Ev.waitCall false, Ev.healthQuery true, Ev.service 0,
          Ev.weightUpdate "osd.0" 1, Ev.waitCall false, Ev.healthQuery true] := by
  refine ⟨?_, by decide, by decide, by decide⟩
  norm_num [do_rebalance, resolveTargets, find_node, find_nodes, matchesSeg,
    descend, crushOf, osdNode, CrushNode.weight, CrushNode.id, CrushNode.name,
    CrushNode.type, schedLoop, doRound, procStep, procTarget, waitRebalance,
    pollLoop, is_rebalance_complete, clampedChange, stepWeight, rabs,
    Function.update, Ev.isWU, List.cons_ne_nil]

/-! Round counting for a single target. -/

theorem roundsFor_pos (S E r : ℚ) : 1 ≤ roundsFor S E r :=
  Nat.le_add_left 1 _

/-- When one clamped step reaches the tolerance band, a single round remains. -/
theorem roundsFor_base (S E r : ℚ) (hS : 0 < S) (h0 : E ≤ r) (h1 : r - S < E) :
    roundsFor S E r = 1 := by
  unfold roundsFor
  have h2 : ⌊(r - E) / S⌋ = 0 := by
    rw [Int.floor_eq_zero_iff, Set.mem_Ico]
    constructor
    · exact div_nonneg (by linarith) hS.le
    · rw [div_lt_one hS]; linarith
  rw [h2]
  rfl

/-- One step of size `S` toward the target removes exactly one round. -/
theorem roundsFor_step (S E r : ℚ) (hS : 0 < S) (h : E ≤ r - S) :
    roundsFor S E r = roundsFor S E (r - S) + 1 := by
  unfold roundsFor
  have hne : S ≠ 0 := ne_of_gt hS
  have heq : (r - E) / S = (r - S - E) / S + 1 := by field_simp; ring
  have hfl : ⌊(r - E) / S⌋ = ⌊(r - S - E) / S⌋ + 1 := by
    rw [heq, Int.floor_add_one]
  have hnn : (0 : ℤ) ≤ ⌊(r - S - E) / S⌋ :=
    Int.floor_nonneg.mpr (div_nonneg (by linarith) hS.le)
  omega

/-- The polling loop emits no service events. -/
theorem pollLoop_no_service (pg : ℕ → List PGStat) :
    ∀ (fuel i : ℕ) (p : List Ev × ℕ), pollLoop pg fuel i = some p →
      countService p.1 = 0 := by
  intro fuel
  induction fuel with
  | zero => intro i p h; exact absurd h (by simp [pollLoop])
  | succ n ih =>
    intro i p h
    rw [pollLoop] at h
    split_ifs at h with hc
    · cases Option.some_injective _ h
      rfl
    · cases hp : pollLoop pg n (i + 1) with
      | none => rw [hp] at h; exact absurd h (by simp)
      | some q =>
        rw [hp] at h
        simp only [Option.map_some'] at h
        cases Option.some_injective _ h
        have h1 : countService (Ev.healthQuery false :: Ev.pollSleep :: q.1) =
            countService q.1 := rfl
        rw [h1]
        exact ih (i + 1) q hp

/-- A settle-wait emits no service events. -/
theorem waitRebalance_no_service (pg : ℕ → List PGStat) (b : Bool) (i pf : ℕ)
    (p : List Ev × ℕ) (h : waitRebalance pg b i pf = some p) :
    countService p.1 = 0 := by
  unfold waitRebalance at h
  cases b with
  | true =>
    rw [if_pos rfl] at h
    cases hp : pollLoop pg pf i with
    | none => rw [hp] at h; exact absurd h (by simp)
    | some q =>
      rw [hp] at h
      simp only [Option.map_some'] at h
      cases Option.some_injective _ h
      have h1 : countService (Ev.waitCall true :: Ev.graceSleep :: q.1) =
          countService q.1 := rfl
      rw [h1]
      exact pollLoop_no_service pg pf i q hp
  | false =>
    rw [if_neg (by simp)] at h
    split_ifs at h with hc
    · cases Option.some_injective _ h
      rfl
    · cases hp : pollLoop pg pf (i + 1) with
      | none => rw [hp] at h; exact absurd h (by simp)
      | some q =>
        rw [hp] at h
        simp only [Option.map_some'] at h
        cases Option.some_injective _ h
        have h1 : countService (Ev.waitCall false :: Ev.healthQuery false :: q.1) =
            countService q.1 := rfl
        rw [h1]
        exact pollLoop_no_service pg pf (i + 1) q hp

/-- The scheduler loop on an empty queue returns immediately. -/
theorem schedLoop_empty (pg : ℕ → List PGStat) (algo : String) (maxR : ℕ)
    (S E : ℚ) (pf : ℕ) (st : SchedState) (h : st.queue = []) (fuel : ℕ)
    (b : Bool) (i : ℕ) :
    schedLoop pg algo maxR S E pf fuel st b i = some ([], st, i) := by
  cases fuel with
  | zero => simp [schedLoop, h]
  | succ n => simp [schedLoop, h]

/-- One round on a single-target queue: the target is serviced, a command is
issued iff the clamped change exceeds the tolerance, the new weight is
committed, and the target is evicted iff the committed weight is within the
tolerance of the required weight. -/
theorem doRound_single (k : ℕ) (S E : ℚ) (nid : ℤ) (name : String) (W : ℚ)
    (f : ℤ → ℚ) :
    doRound "rround" (k + 1) S E ⟨[(nid, name, W)], f⟩ =
      (⟨if rabs (stepWeight S (f nid) W - W) < E then [] else [(nid, name, W)],
        Function.update f nid (stepWeight S (f nid) W)⟩,
       Ev.service nid ::
         (if E < rabs (clampedChange S (f nid) W) then
           [Ev.weightUpdate name (stepWeight S (f nid) W)] else []),
       (if E < rabs (clampedChange S (f nid) W) then
           [Ev.weightUpdate name (stepWeight S (f nid) W)] else []).any Ev.isWU) := by
  unfold doRound procStep procTarget
  simp [List.take_succ_cons, List.drop_succ_cons, List.filter, Ev.isWU]

/-- The scheduler loop on a single unconverged target terminates with an
empty queue and services the target exactly `roundsFor S E |W - w0|` times,
for any sufficient round fuel and any health oracle whose waits succeed. -/
theorem schedLoop_single (pg : ℕ → List PGStat) (k : ℕ) (S E : ℚ) (hS : 0 < S)
    (hE : 0 < E) (nid : ℤ) (name : String) (W : ℚ) (pf : ℕ)
    (hw : ∀ (b : Bool) (i : ℕ), (waitRebalance pg b i pf).isSome = true) :
    ∀ (fuel : ℕ) (f : ℤ → ℚ) (b : Bool) (i : ℕ),
      E ≤ |W - f nid| → roundsFor S E |W - f nid| ≤ fuel →
      ∃ p, schedLoop pg "rround" (k + 1) S E pf fuel
          (⟨[(nid, name, W)], f⟩ : SchedState) b i = some p
        ∧ countService p.1 = roundsFor S E |W - f nid| := by
  intro fuel
  induction fuel with
  | zero =>
    intro f b i hr hfuel
    have := roundsFor_pos S E |W - f nid|
    omega
  | succ n ih =>
    intro f b i hr hfuel
    obtain ⟨⟨wev, i'⟩, hwev⟩ := Option.isSome_iff_exists.mp (hw b i)
    have hwsv : countService wev = 0 :=
      waitRebalance_no_service pg b i pf (wev, i') hwev
    have hstep : schedLoop pg "rround" (k + 1) S E pf (n + 1)
        (⟨[(nid, name, W)], f⟩ : SchedState) b i =
        (waitRebalance pg b i pf).bind fun p =>
          (schedLoop pg "rround" (k + 1) S E pf n
              (doRound "rround" (k + 1) S E ⟨[(nid, name, W)], f⟩).1
              (doRound "rround" (k + 1) S E ⟨[(nid, name, W)], f⟩).2.2 p.2).map
            fun q =>
              (p.1 ++ (doRound "rround" (k + 1) S E ⟨[(nid, name, W)], f⟩).2.1 ++
                q.1, q.2) := by
      rw [schedLoop]
      rw [if_neg (by simp)]
    rw [hstep, hwev, doRound_single k S E nid name W f]
    simp only [Option.some_bind, rabs_eq_abs]
    have hcount : countService (Ev.service nid ::
        (if E < |clampedChange S (f nid) W| then
          [Ev.weightUpdate name (stepWeight S (f nid) W)] else [])) = 1 := by
      split_ifs <;> rfl
    by_cases hconv : |stepWeight S (f nid) W - W| < E
    · rw [if_pos hconv]
      rw [schedLoop_empty pg "rround" (k + 1) S E pf _ rfl n _ i']
      simp only [Option.map_some']
      refine ⟨_, rfl, ?_⟩
      have hone : roundsFor S E |W - f nid| = 1 := by
        apply roundsFor_base S E _ hS hr
        by_cases hle : |W - f nid| ≤ S
        · linarith
        · rw [stepWeight_far S (f nid) W hS (not_le.mp hle)] at hconv
          linarith
      rw [hone]
      simp only [countService_append, hwsv, hcount, List.append_nil]
    · rw [if_neg hconv]
      have hfar : S < |W - f nid| := by
        by_contra hle
        rw [stepWeight_near S (f nid) W (not_lt.mp hle), sub_self, abs_zero]
          at hconv
        exact hconv hE
      have hnw : |stepWeight S (f nid) W - W| = |W - f nid| - S :=
        stepWeight_far S (f nid) W hS hfar
      have hrem : |W - Function.update f nid (stepWeight S (f nid) W) nid| =
          |W - f nid| - S := by
        rw [Function.update_same, abs_sub_comm]
        exact hnw
      have hr' : E ≤ |W - Function.update f nid (stepWeight S (f nid) W) nid| := by
        rw [hrem]
        exact not_lt.mp (fun hlt => hconv (by rw [hnw]; exact hlt))
      have hsplit : roundsFor S E |W - f nid| =
          roundsFor S E (|W - f nid| - S) + 1 :=
        roundsFor_step S E |W - f nid| hS (by rw [← hrem]; exact hr')
      have hfuel' : roundsFor S E
          |W - Function.update f nid (stepWeight S (f nid) W) nid| ≤ n := by
        rw [hrem]
        omega
      obtain ⟨p, hp, hc⟩ := ih (Function.update f nid (stepWeight S (f nid) W))
        ((if E < |clampedChange S (f nid) W| then
          [Ev.weightUpdate name (stepWeight S (f nid) W)] else []).any Ev.isWU)
        i' hr' hfuel'
      rw [hp]
      simp only [Option.map_some']
      refine ⟨_, rfl, ?_⟩
      simp only [countService_append, hwsv, hcount]
      rw [hc, hrem, hsplit]
      omega

/-- C2 (amended): with the quiet flag unset, for a single target with start
weight `w0`, desired weight `W`, step `S > 0` and tolerance `E > 0`, the run
terminates; the target is serviced in 0 rounds (dropped by the aggregate
gate before the loop) when `|W - w0| < E`, and otherwise in exactly
`roundsFor S E |W - w0|` rounds, the least `k` with `k * S > |W - w0| - E`
(which can be smaller than `ceil(|W - w0| / S)`). -/
theorem single_target_round_count (w0 W S E : ℚ) (hS : 0 < S) (hE : 0 < E)
    (k : ℕ) (pg : ℕ → List PGStat) (pf lf : ℕ)
    (hw : ∀ (b : Bool) (i : ℕ), (waitRebalance pg b i pf).isSome = true)
    (hl : roundsFor S E |W - w0| ≤ lf) :
    ∃ tr, do_rebalance (crushOf w0) [([("osd", "osd.0")], W)] false true false
        "rround" (k + 1) S E pg pf lf = some tr
      ∧ countService tr = if |W - w0| < E then 0 else roundsFor S E |W - w0| := by
  have hres : resolveTargets (crushOf w0) [([("osd", "osd.0")], W)] =
      some [⟨0, "osd.0", w0, W⟩] := rfl
  unfold do_rebalance
  simp only [hres]
  simp only [List.map_cons, List.map_nil, List.sum_cons, List.sum_nil, add_zero,
    List.foldl_cons, List.foldl_nil]
  by_cases hcase : rabs (w0 - W) < E
  · rw [if_pos ⟨trivial, hcase⟩]
    refine ⟨_, rfl, ?_⟩
    rw [rabs_eq_abs, abs_sub_comm] at hcase
    rw [if_pos hcase]
    rfl
  · rw [if_neg (fun hand => hcase hand.2)]
    norm_num
    have hf : Function.update (fun _ => (0 : ℚ)) (0 : ℤ) w0 0 = w0 :=
      Function.update_same _ _ _
    have hge : E ≤ |W - w0| := by
      rw [rabs_eq_abs, abs_sub_comm] at hcase
      exact not_lt.mp hcase
    have hr : E ≤ |W - Function.update (fun _ => (0 : ℚ)) (0 : ℤ) w0 0| := by
      rw [hf]; exact hge
    have hfl : roundsFor S E
        |W - Function.update (fun _ => (0 : ℚ)) (0 : ℤ) w0 0| ≤ lf := by
      rw [hf]; exact hl
    obtain ⟨⟨p1, p2, p3⟩, hp, hc⟩ :=
      schedLoop_single pg k S E hS hE 0 "osd.0" W pf hw lf
        (Function.update (fun _ => (0 : ℚ)) (0 : ℤ) w0) false 0 hr hfl
    simp only [hp]
    obtain ⟨⟨wtr, j⟩, hwv⟩ := Option.isSome_iff_exists.mp (hw false p3)
    simp only [hwv]
    have hwns : countService wtr = 0 :=
      waitRebalance_no_service pg false p3 pf (wtr, j) hwv
    refine ⟨_, rfl, ?_⟩
    rw [if_neg (not_lt.mpr hge)]
    rw [hf] at hc
    have htopo : countService (Ev.topoQuery :: (p1 ++ wtr)) = countService p1 := by
      have h1 : countService (Ev.topoQuery :: (p1 ++ wtr)) =
          countService (p1 ++ wtr) := rfl
      rw [h1, countService_append, hwns, Nat.add_zero]
    rw [htopo]
    exact hc

/-- C2 witness: one target from weight 0 to 1 with step 1 and tolerance 1/2
on an always-settled cluster converges, serviced `roundsFor 1 (1/2) 1 = 1`
times. -/
theorem single_target_round_count_witness :
    ∃ tr, do_rebalance (crushOf 0) [([("osd", "osd.0")], 1)] false true false
        "rround" (0 + 1) 1 (1/2) (fun _ => []) 1 1 = some tr
      ∧ countService tr =
          if |(1 : ℚ) - 0| < 1/2 then 0 else roundsFor 1 (1/2) |(1 : ℚ) - 0| :=
  single_target_round_count 0 1 1 (1/2) (by norm_num) (by norm_num) 0
    (fun _ => []) 1 1 (fun b i => by cases b <;> rfl)
    (by rw [show |(1 : ℚ) - 0| = 1 by norm_num]
        have h0 : ⌊((1 : ℚ) - 1/2) / 1⌋ = 0 := by
          rw [Int.floor_eq_zero_iff, Set.mem_Ico]
          norm_num
        unfold roundsFor
        rw [h0]
        simp)

/-- C2 counterexample: a single target from weight 0 to 3/5 with step 1/2
and tolerance 1/5 is serviced exactly once before convergence, while the
claimed formula `max 1 ceil(|W - W0| / S)` predicts 2 rounds. -/
theorem round_count_counterexample :
    (do_rebalance (crushOf 0) [([("osd", "osd.0")], 3/5)] false true false
        "rround" 1 (1/2) (1/5) (fun _ => []) 1 3).map countService = some 1
    ∧ max 1 ⌈|(3/5 : ℚ) - 0| / (1/2 : ℚ)⌉ = 2 := by
  constructor
  · norm_num [do_rebalance, resolveTargets, find_node, find_nodes, matchesSeg,
      descend, crushOf, osdNode, CrushNode.weight, CrushNode.id, CrushNode.name,
      CrushNode.type, schedLoop, doRound, procStep, procTarget, waitRebalance,
      pollLoop, is_rebalance_complete, clampedChange, stepWeight, rabs,
      countService, Function.update, Ev.isWU, List.cons_ne_nil, List.filter_cons]
  · rw [show |(3/5 : ℚ) - 0| = 3/5 by norm_num]
    rw [show ((3 : ℚ)/5) / (1/2) = 6/5 by norm_num]
    rw [show ⌈(6/5 : ℚ)⌉ = 2 by rw [Int.ceil_eq_iff]; norm_num]
    rfl
